import Mathlib

/-!
Verification development for the Minesweeper knowledge-based agent
(source file: minesweeper.py).

The Python classes are shallowly embedded as follows:
* a board cell (a pair of Python ints) becomes `Cell := ℤ × ℤ`;
* a Python `set` of cells becomes a `Finset Cell`;
* class `Sentence` becomes the structure `Sentence` (a finite cell set
  together with an integer count);
* class `MinesweeperAI` becomes the structure `Store` carrying the fields
  `height`, `width`, `moves_made`, `safes`, `mines` and `knowledge`;
* methods mutating `self` become functions `Store → ... → Store`;
* the recursive fixpoint `apply_knowledge` is embedded with an explicit
  pass counter (`applyKnowledgeAux`); the counter `storeMeasure st + 1`
  is proved sufficient below, so `applyKnowledge` returns `some` of the
  fixpoint on every input;
* Python exceptions (the `KeyError` raised by `set.remove` inside
  `get_neighbouring_cells`, and the `ValueError` that `list.remove`
  would raise) are embedded as `Option`/`Except` error results, with the
  `Except.error` payload carrying the mutated state at the raise point,
  since in Python the mutations made before an exception persist.

Iteration over a Python `set` (whose order is unspecified) is embedded as
iteration over the list of its elements sorted by the lexicographic order
`cellLe`; all the set-marking loops of the source commute over distinct
cells, so this is one faithful instantiation of the unspecified order.
-/

/-- A board cell: a (row, column) pair of Python integers. -/
abbrev Cell : Type := ℤ × ℤ

/-- Lexicographic order on cells, used only to enumerate the elements of a
Python `set` in a definite order. -/
def cellLe (a b : Cell) : Prop :=
  a.1 < b.1 ∨ (a.1 = b.1 ∧ a.2 ≤ b.2)

instance : DecidableRel cellLe :=
  fun a b => decidable_of_iff (a.1 < b.1 ∨ (a.1 = b.1 ∧ a.2 ≤ b.2)) Iff.rfl

instance : IsTrans Cell cellLe := by
  constructor
  intro a b c hab hbc
  unfold cellLe at *
  omega

instance : IsAntisymm Cell cellLe := by
  constructor
  intro a b hab hba
  unfold cellLe at *
  have h1 : a.1 = b.1 := by omega
  have h2 : a.2 = b.2 := by omega
  exact Prod.ext h1 h2

instance : IsTotal Cell cellLe := by
  constructor
  intro a b
  unfold cellLe
  omega

/-- The elements of a multiset of cells as a list in `cellLe` order, via
insertion sort (whose recursion is structural, so that concrete states
evaluate inside proofs by `decide`). -/
def msortCells (m : Multiset Cell) : List Cell :=
  Quot.liftOn m (fun l => List.insertionSort cellLe l)
    (fun l₁ l₂ h => List.eq_of_perm_of_sorted
      ((List.perm_insertionSort cellLe l₁).trans
        (h.trans (List.perm_insertionSort cellLe l₂).symm))
      (List.sorted_insertionSort cellLe l₁) (List.sorted_insertionSort cellLe l₂))

/-- The list of the elements of a finite cell set, in `cellLe` order.
Embeds iteration over a Python `set` of cells. -/
def cellList (s : Finset Cell) : List Cell :=
  msortCells s.val

/-- Source class `Sentence`: a set of board cells together with a count of
the number of those cells which are mines.  Python `__eq__` compares the
two fields structurally, which is exactly the derived decidable equality. -/
structure Sentence where
  cells : Finset Cell
  count : ℤ
deriving DecidableEq

/-- Source `Sentence.known_mines`: returns the cell set when
`len(self.cells) == self.count`, and `None` otherwise. -/
def Sentence.knownMines (s : Sentence) : Option (Finset Cell) :=
  if (s.cells.card : ℤ) = s.count then some s.cells else none

/-- Source `Sentence.known_safes`: returns the cell set when
`self.count == 0`, and `None` otherwise. -/
def Sentence.knownSafes (s : Sentence) : Option (Finset Cell) :=
  if s.count = 0 then some s.cells else none

/-- Source `Sentence.mark_mine`: if the cell is in the sentence, remove it
and decrement the count. -/
def Sentence.markMine (s : Sentence) (cell : Cell) : Sentence :=
  if cell ∈ s.cells then { cells := s.cells.erase cell, count := s.count - 1 } else s

/-- Source `Sentence.mark_safe`: if the cell is in the sentence, remove it;
the count is unchanged. -/
def Sentence.markSafe (s : Sentence) (cell : Cell) : Sentence :=
  if cell ∈ s.cells then { cells := s.cells.erase cell, count := s.count } else s

/-- The state of a `MinesweeperAI` object: board dimensions, the moves
made, the cells known safe, the cells known to be mines, and the ordered
knowledge list of sentences. -/
structure Store where
  height : ℤ
  width : ℤ
  moves_made : Finset Cell
  safes : Finset Cell
  mines : Finset Cell
  knowledge : List Sentence
deriving DecidableEq

/-- Source `MinesweeperAI.__init__`: empty sets and an empty knowledge
list. -/
def initStore (height width : ℤ) : Store :=
  { height := height, width := width, moves_made := ∅, safes := ∅, mines := ∅, knowledge := [] }

/-- Source `MinesweeperAI.mark_mine`: add the cell to `mines` and update
every sentence in the knowledge list that contains the cell. -/
def Store.markMine (st : Store) (cell : Cell) : Store :=
  { st with
    mines := insert cell st.mines
    knowledge := st.knowledge.map (fun s => if cell ∈ s.cells then s.markMine cell else s) }

/-- Source `MinesweeperAI.mark_safe`: add the cell to `safes` and update
every sentence in the knowledge list that contains the cell. -/
def Store.markSafe (st : Store) (cell : Cell) : Store :=
  { st with
    safes := insert cell st.safes
    knowledge := st.knowledge.map (fun s => if cell ∈ s.cells then s.markSafe cell else s) }

/-- The in-bounds cells of the 3x3 box around `cell` (including `cell`
itself when it is on the board): the set built by the two nested loops of
`get_neighbouring_cells` before the final `remove`. -/
def boundedBox (height width : ℤ) (cell : Cell) : Finset Cell :=
  ((Finset.Icc (cell.1 - 1) (cell.1 + 1)) ×ˢ (Finset.Icc (cell.2 - 1) (cell.2 + 1))).filter
    (fun p => 0 ≤ p.1 ∧ p.1 < height ∧ 0 ≤ p.2 ∧ p.2 < width)

/-- The in-bounds neighbours of a cell, excluding the cell itself.  This is
the value `get_neighbouring_cells` returns when it does not raise. -/
def neighboursIn (height width : ℤ) (cell : Cell) : Finset Cell :=
  (boundedBox height width cell).erase cell

/-- Source `MinesweeperAI.get_neighbouring_cells`.  The final
`neighbouring_cells.remove(cell)` raises `KeyError` when `cell` is not a
member, i.e. exactly when `cell` is out of bounds; that raise is embedded
as `none`. -/
def getNeighbouringCells (st : Store) (cell : Cell) : Option (Finset Cell) :=
  if cell ∈ boundedBox st.height st.width cell
  then some ((boundedBox st.height st.width cell).erase cell)
  else none

/-- Source `MinesweeperAI.get_hidden_neighbouring_cells`: the neighbours
minus `moves_made`; propagates the possible `KeyError`. -/
def getHiddenNeighbouringCells (st : Store) (cell : Cell) : Option (Finset Cell) :=
  (getNeighbouringCells st cell).map (fun nbrs => nbrs \ st.moves_made)

/-- The loop `for mine in mine_cells: self.mark_mine(mine)`, iterating in
the order of the given list. -/
def markMinesL (cs : List Cell) (st : Store) : Store :=
  cs.foldl Store.markMine st

/-- The loop `for safe in safe_cells: self.mark_safe(safe)`, iterating in
the order of the given list. -/
def markSafesL (cs : List Cell) (st : Store) : Store :=
  cs.foldl Store.markSafe st

/-- Processing of one snapshot sentence with a non-empty cell set inside a
pass of `apply_knowledge`: mark its known mines, then its known safes,
raising the repeat flag when either branch fires. -/
def passStep (s : Sentence) (st : Store) (flag : Bool) : Store × Bool :=
  let m := match s.knownMines with
    | some cs => (markMinesL (cellList cs) st, true)
    | none => (st, flag)
  match s.knownSafes with
  | some cs => (markSafesL (cellList cs) m.1, true)
  | none => m

/-- One pass of `apply_knowledge` over the snapshot `knowledge_copy`:
iterate over the snapshot sentences in order; on a sentence with an empty
cell set, remove it from the live knowledge list and break (the removal is
Python `list.remove`, which raises `ValueError` when no equal element is
present: embedded as `none`); otherwise mark the known mines and safes.
Returns the updated store and the repeat flag. -/
def passAux : List Sentence → Store → Bool → Option (Store × Bool)
  | [], st, flag => some (st, flag)
  | s :: rest, st, flag =>
    if s.cells = ∅ then
      if s ∈ st.knowledge
      then some ({ st with knowledge := st.knowledge.erase s }, true)
      else none
    else
      let r := passStep s st flag
      passAux rest r.1 r.2

/-- Total number of cells across the knowledge list, counting each sentence
once more; every flag-raising pass strictly decreases this measure. -/
def storeMeasure (st : Store) : ℕ :=
  (st.knowledge.map (fun s => s.cells.card + 1)).sum

/-- Source `MinesweeperAI.apply_knowledge` with an explicit bound on the
number of passes: take a snapshot of the knowledge list, run a pass over
it, and recurse while the repeat flag is set. -/
def applyKnowledgeAux : ℕ → Store → Option Store
  | 0, _ => none
  | n + 1, st =>
    match passAux st.knowledge st false with
    | none => none
    | some (st', true) => applyKnowledgeAux n st'
    | some (st', false) => some st'

/-- Source `MinesweeperAI.apply_knowledge`.  The pass bound
`storeMeasure st + 1` is proved sufficient below (`applyKnowledge_spec`),
so the result is `some` of the fixpoint on every input. -/
def applyKnowledge (st : Store) : Option Store :=
  applyKnowledgeAux (storeMeasure st + 1) st

/-- Source `MinesweeperAI.generate_new_knowledge`: for every ordered pair
of structurally distinct sentences in the knowledge list where the first
is a subset of the second, emit the difference sentence when its cell set
is non-empty. -/
def generateNewKnowledge (st : Store) : List Sentence :=
  st.knowledge.flatMap (fun s1 =>
    st.knowledge.filterMap (fun s2 =>
      if s1 ≠ s2 ∧ s1.cells ⊆ s2.cells then
        let newCells := s2.cells \ s1.cells
        let newCount := s2.count - s1.count
        if 0 < newCells.card then some { cells := newCells, count := newCount } else none
      else none))

/-- Source `MinesweeperAI.add_knowledge`: record the move, mark the cell
safe, append the raw sentence built from the hidden neighbours when that
set is non-empty, close the store with `apply_knowledge`, then append all
sentences produced by `generate_new_knowledge`.  An `Except.error` result
carries the state at the point where the Python code raises. -/
def addKnowledge (st : Store) (cell : Cell) (count : ℤ) : Except Store Store :=
  let st1 : Store := { st with moves_made := insert cell st.moves_made }
  let st2 : Store := st1.markSafe cell
  match getHiddenNeighbouringCells st2 cell with
  | none => Except.error st2
  | some cells =>
    let st3 : Store :=
      if 0 < cells.card
      then { st2 with knowledge := st2.knowledge ++ [{ cells := cells, count := count }] }
      else st2
    match applyKnowledge st3 with
    | none => Except.error st3
    | some st4 => Except.ok { st4 with knowledge := st4.knowledge ++ generateNewKnowledge st4 }

/-- The observable state after a call that may raise: in Python the object
mutations made before an exception persist, so the error payload is the
state at the raise point. -/
def stateOf : Except Store Store → Store
  | Except.ok st => st
  | Except.error st => st

/-- Whether a call raised. -/
def raised : Except Store Store → Bool
  | Except.ok _ => false
  | Except.error _ => true

/-- The full board cell set, built by the two nested `range` loops of
`make_random_move`. -/
def allCells (st : Store) : Finset Cell :=
  (Finset.Icc (0 : ℤ) (st.height - 1)) ×ˢ (Finset.Icc (0 : ℤ) (st.width - 1))

/-- The candidate set of `make_random_move`: all board cells minus the
union of `safes`, `mines` and `moves_made`. -/
def unknownCells (st : Store) : Finset Cell :=
  allCells st \ (st.safes ∪ st.mines ∪ st.moves_made)

/-- Source `MinesweeperAI.make_random_move`: `random.sample` draws an
unspecified element of the candidate set; the embedding picks the least
element in `cellLe` order. -/
def makeRandomMove (st : Store) : Option Cell :=
  if 0 < (unknownCells st).card then (cellList (unknownCells st)).head? else none

/-- The cell is inside the board of the store. -/
def inBounds (st : Store) (cell : Cell) : Prop :=
  0 ≤ cell.1 ∧ cell.1 < st.height ∧ 0 ≤ cell.2 ∧ cell.2 < st.width

instance (st : Store) (cell : Cell) : Decidable (inBounds st cell) :=
  decidable_of_iff (0 ≤ cell.1 ∧ cell.1 < st.height ∧ 0 ≤ cell.2 ∧ cell.2 < st.width) Iff.rfl

/-- A sentence is a true statement about the ground-truth mine set `M`:
exactly `count` of its cells lie in `M`. -/
def sentenceHolds (M : Finset Cell) (s : Sentence) : Prop :=
  ((s.cells ∩ M).card : ℤ) = s.count

/-- Soundness invariant of a store with respect to a ground-truth mine set
`M`: every sentence in the knowledge list holds of `M`, every tracked mine
is a true mine, and no tracked safe cell or probed cell is a mine. -/
def InvM (M : Finset Cell) (st : Store) : Prop :=
  (∀ s ∈ st.knowledge, sentenceHolds M s) ∧
    st.mines ⊆ M ∧ (∀ c ∈ st.safes, c ∉ M) ∧ (∀ c ∈ st.moves_made, c ∉ M)

/-- No cell of any sentence in the knowledge list is already tracked in
`safes` or `mines`. -/
def noKnownCells (st : Store) : Prop :=
  ∀ s ∈ st.knowledge, ∀ c ∈ s.cells, c ∉ st.safes ∧ c ∉ st.mines

instance (st : Store) : Decidable (noKnownCells st) := by
  unfold noKnownCells
  infer_instance

/-- States reachable from a fresh agent by arbitrary calls of the public
mutating operations (`add_knowledge`, `mark_mine`, `mark_safe`); the move
queries are pure and do not change the state.  A raising `add_knowledge`
call leaves the object in the mutated state at the raise point. -/
inductive ReachesAny (height width : ℤ) : Store → Prop where
  | init : ReachesAny height width (initStore height width)
  | addK {st : Store} (cell : Cell) (count : ℤ) :
      ReachesAny height width st →
      ReachesAny height width (stateOf (addKnowledge st cell count))
  | markM {st : Store} (cell : Cell) :
      ReachesAny height width st → ReachesAny height width (st.markMine cell)
  | markS {st : Store} (cell : Cell) :
      ReachesAny height width st → ReachesAny height width (st.markSafe cell)

/-- States reachable from a fresh agent by public operations that are
consistent with a ground-truth board whose mine set is `M`:
`add_knowledge` is called on a non-mine cell with the true neighbouring
mine count of that cell (the value `Minesweeper.nearby_mines` computes),
`mark_mine` only on true mines, and `mark_safe` only on true non-mines. -/
inductive ReachesCons (M : Finset Cell) (height width : ℤ) : Store → Prop where
  | init : ReachesCons M height width (initStore height width)
  | addK {st : Store} (cell : Cell) (count : ℤ) :
      ReachesCons M height width st → cell ∉ M →
      count = ((neighboursIn st.height st.width cell ∩ M).card : ℤ) →
      ReachesCons M height width (stateOf (addKnowledge st cell count))
  | markM {st : Store} (cell : Cell) :
      ReachesCons M height width st → cell ∈ M →
      ReachesCons M height width (st.markMine cell)
  | markS {st : Store} (cell : Cell) :
      ReachesCons M height width st → cell ∉ M →
      ReachesCons M height width (st.markSafe cell)

/-- The store after steps 1 to 3 of `add_knowledge` for an in-bounds cell:
record the move, mark the cell safe, and append the raw sentence built
from the hidden neighbours when that set is non-empty. -/
def observePrefix (st : Store) (cell : Cell) (count : ℤ) : Store :=
  let st2 : Store := Store.markSafe { st with moves_made := insert cell st.moves_made } cell
  let cells : Finset Cell := neighboursIn st2.height st2.width cell \ st2.moves_made
  if 0 < cells.card
  then { st2 with knowledge := st2.knowledge ++ [{ cells := cells, count := count }] }
  else st2

/-- Concrete state reached by calling `mark_mine` and then `mark_safe` on
the same cell of a fresh 2 by 2 agent. -/
def claim1CexStore : Store :=
  Store.markSafe (Store.markMine (initStore 2 2) ((0 : ℤ), (0 : ℤ))) ((0 : ℤ), (0 : ℤ))

/-- Concrete state reached by the observations `(0,0) ↦ 0` then
`(0,2) ↦ 1` on a fresh 3 by 3 agent (consistent with a board whose only
mine is at `(2,2)`, for instance): the first call proves `(0,1)` and
`(1,1)` safe, and the second call builds a sentence that still contains
those safe cells. -/
def claim2Trace : Store :=
  stateOf (addKnowledge (stateOf (addKnowledge (initStore 3 3) ((0 : ℤ), (0 : ℤ)) 0))
    ((0 : ℤ), (2 : ℤ)) 1)

/-- Concrete state reached by the observations `(0,0) ↦ 1` then
`(0,1) ↦ 1` on a fresh 2 by 3 agent (consistent with a board whose only
mine is at `(1,0)`): resolution derives the sentence `{(0,2),(1,2)} = 0`
and appends it, but its safe cells are not folded into `safes` within the
same call. -/
def claim5Trace : Store :=
  stateOf (addKnowledge (stateOf (addKnowledge (initStore 2 3) ((0 : ℤ), (0 : ℤ)) 1))
    ((0 : ℤ), (1 : ℤ)) 1)

/-- Concrete state: a fresh 2 by 2 agent on which `mark_mine` was called
with the out-of-bounds cell `(5,5)`. -/
def claim9CexStore : Store :=
  Store.markMine (initStore 2 2) ((5 : ℤ), (5 : ℤ))

/-! ### Basic lemmas about the sentence operations -/

theorem knownMines_eq_some {s : Sentence} {cs : Finset Cell}
    (h : s.knownMines = some cs) : cs = s.cells ∧ (s.cells.card : ℤ) = s.count := by
  unfold Sentence.knownMines at h
  by_cases hc : (s.cells.card : ℤ) = s.count
  · simp [hc] at h
    exact ⟨h.symm, hc⟩
  · simp [hc] at h

theorem knownMines_eq_none {s : Sentence} :
    s.knownMines = none ↔ (s.cells.card : ℤ) ≠ s.count := by
  unfold Sentence.knownMines
  by_cases hc : (s.cells.card : ℤ) = s.count <;> simp [hc]

theorem knownSafes_eq_some {s : Sentence} {cs : Finset Cell}
    (h : s.knownSafes = some cs) : cs = s.cells ∧ s.count = 0 := by
  unfold Sentence.knownSafes at h
  by_cases hc : s.count = 0
  · simp [hc] at h
    exact ⟨h.symm, hc⟩
  · simp [hc] at h

theorem knownSafes_eq_none {s : Sentence} :
    s.knownSafes = none ↔ s.count ≠ 0 := by
  unfold Sentence.knownSafes
  by_cases hc : s.count = 0 <;> simp [hc]

theorem markMineIf_cells (c : Cell) (s : Sentence) :
    (if c ∈ s.cells then s.markMine c else s).cells = s.cells.erase c := by
  by_cases hc : c ∈ s.cells <;>
    simp [Sentence.markMine, hc, Finset.erase_eq_of_not_mem]

theorem markSafeIf_cells (c : Cell) (s : Sentence) :
    (if c ∈ s.cells then s.markSafe c else s).cells = s.cells.erase c := by
  by_cases hc : c ∈ s.cells <;>
    simp [Sentence.markSafe, hc, Finset.erase_eq_of_not_mem]

theorem mem_msortCells {m : Multiset Cell} {c : Cell} : c ∈ msortCells m ↔ c ∈ m := by
  induction m using Quot.inductionOn with
  | h l => simp [msortCells, (List.perm_insertionSort cellLe l).mem_iff]

theorem mem_cellList {s : Finset Cell} {c : Cell} : c ∈ cellList s ↔ c ∈ s :=
  mem_msortCells

theorem cellList_ne_nil {s : Finset Cell} (h : s ≠ ∅) : cellList s ≠ [] := by
  obtain ⟨c, hc⟩ := Finset.nonempty_iff_ne_empty.mpr h
  exact List.ne_nil_of_mem (mem_cellList.mpr hc)

/-! ### Field lemmas for the store operations -/

theorem markMine_fields (st : Store) (c : Cell) :
    (st.markMine c).height = st.height ∧ (st.markMine c).width = st.width ∧
      (st.markMine c).moves_made = st.moves_made ∧ (st.markMine c).safes = st.safes ∧
      (st.markMine c).mines = insert c st.mines :=
  ⟨rfl, rfl, rfl, rfl, rfl⟩

theorem markSafe_fields (st : Store) (c : Cell) :
    (st.markSafe c).height = st.height ∧ (st.markSafe c).width = st.width ∧
      (st.markSafe c).moves_made = st.moves_made ∧ (st.markSafe c).mines = st.mines ∧
      (st.markSafe c).safes = insert c st.safes :=
  ⟨rfl, rfl, rfl, rfl, rfl⟩

/-! ### Measure lemmas -/

theorem storeMeasure_markMine_le (st : Store) (c : Cell) :
    storeMeasure (st.markMine c) ≤ storeMeasure st := by
  unfold storeMeasure Store.markMine
  simp only [List.map_map]
  apply List.sum_le_sum
  intro s _
  simp only [Function.comp_apply, markMineIf_cells]
  have h1 : (s.cells.erase c).card ≤ s.cells.card := Finset.card_erase_le
  omega

theorem storeMeasure_markSafe_le (st : Store) (c : Cell) :
    storeMeasure (st.markSafe c) ≤ storeMeasure st := by
  unfold storeMeasure Store.markSafe
  simp only [List.map_map]
  apply List.sum_le_sum
  intro s _
  simp only [Function.comp_apply, markSafeIf_cells]
  have h1 : (s.cells.erase c).card ≤ s.cells.card := Finset.card_erase_le
  omega

theorem storeMeasure_markMine_lt (st : Store) (c : Cell)
    (h : ∃ e ∈ st.knowledge, c ∈ e.cells) :
    storeMeasure (st.markMine c) < storeMeasure st := by
  unfold storeMeasure Store.markMine
  simp only [List.map_map]
  apply List.sum_lt_sum
  · intro s _
    simp only [Function.comp_apply, markMineIf_cells]
    have h1 : (s.cells.erase c).card ≤ s.cells.card := Finset.card_erase_le
    omega
  · obtain ⟨e, he, hc⟩ := h
    refine ⟨e, he, ?_⟩
    simp only [Function.comp_apply, markMineIf_cells]
    have h1 := Finset.card_erase_of_mem hc
    have h2 : 0 < e.cells.card := Finset.card_pos.mpr ⟨c, hc⟩
    omega

theorem storeMeasure_markSafe_lt (st : Store) (c : Cell)
    (h : ∃ e ∈ st.knowledge, c ∈ e.cells) :
    storeMeasure (st.markSafe c) < storeMeasure st := by
  unfold storeMeasure Store.markSafe
  simp only [List.map_map]
  apply List.sum_lt_sum
  · intro s _
    simp only [Function.comp_apply, markSafeIf_cells]
    have h1 : (s.cells.erase c).card ≤ s.cells.card := Finset.card_erase_le
    omega
  · obtain ⟨e, he, hc⟩ := h
    refine ⟨e, he, ?_⟩
    simp only [Function.comp_apply, markSafeIf_cells]
    have h1 := Finset.card_erase_of_mem hc
    have h2 : 0 < e.cells.card := Finset.card_pos.mpr ⟨c, hc⟩
    omega

theorem storeMeasure_markMinesL_le (cs : List Cell) (st : Store) :
    storeMeasure (markMinesL cs st) ≤ storeMeasure st := by
  induction cs generalizing st with
  | nil => exact le_refl _
  | cons c rest ih =>
    calc storeMeasure (markMinesL rest (st.markMine c)) ≤ storeMeasure (st.markMine c) := ih _
      _ ≤ storeMeasure st := storeMeasure_markMine_le st c

theorem storeMeasure_markSafesL_le (cs : List Cell) (st : Store) :
    storeMeasure (markSafesL cs st) ≤ storeMeasure st := by
  induction cs generalizing st with
  | nil => exact le_refl _
  | cons c rest ih =>
    calc storeMeasure (markSafesL rest (st.markSafe c)) ≤ storeMeasure (st.markSafe c) := ih _
      _ ≤ storeMeasure st := storeMeasure_markSafe_le st c

theorem storeMeasure_markMinesL_lt (c : Cell) (rest : List Cell) (st : Store)
    (h : ∃ e ∈ st.knowledge, c ∈ e.cells) :
    storeMeasure (markMinesL (c :: rest) st) < storeMeasure st :=
  lt_of_le_of_lt (storeMeasure_markMinesL_le rest (st.markMine c))
    (storeMeasure_markMine_lt st c h)

theorem storeMeasure_markSafesL_lt (c : Cell) (rest : List Cell) (st : Store)
    (h : ∃ e ∈ st.knowledge, c ∈ e.cells) :
    storeMeasure (markSafesL (c :: rest) st) < storeMeasure st :=
  lt_of_le_of_lt (storeMeasure_markSafesL_le rest (st.markSafe c))
    (storeMeasure_markSafe_lt st c h)

theorem storeMeasure_erase_lt {st : Store} {s : Sentence} (h : s ∈ st.knowledge) :
    storeMeasure { st with knowledge := st.knowledge.erase s } < storeMeasure st := by
  unfold storeMeasure
  dsimp only
  have hp : List.Perm st.knowledge (s :: st.knowledge.erase s) := List.perm_cons_erase h
  have hsum := (hp.map (fun s => s.cells.card + 1)).sum_eq
  simp only [List.map_cons, List.sum_cons] at hsum
  omega

/-! ### Lemmas about one step of a pass -/

theorem passStep_none_none {s : Sentence} {st : Store} {flag : Bool}
    (hm : s.knownMines = none) (hs : s.knownSafes = none) :
    passStep s st flag = (st, flag) := by
  simp [passStep, hm, hs]

theorem passStep_flag_char {s : Sentence} {st : Store}
    (h : (passStep s st false).2 = false) :
    s.knownMines = none ∧ s.knownSafes = none := by
  cases hm : s.knownMines <;> cases hs : s.knownSafes <;>
    simp [passStep, hm, hs] at h ⊢

theorem passStep_flag_true (s : Sentence) (st : Store) :
    (passStep s st true).2 = true := by
  cases hm : s.knownMines <;> cases hs : s.knownSafes <;> simp [passStep, hm, hs]

theorem passStep_measure_le (s : Sentence) (st : Store) (flag : Bool) :
    storeMeasure (passStep s st flag).1 ≤ storeMeasure st := by
  cases hm : s.knownMines <;> cases hs : s.knownSafes <;> simp [passStep, hm, hs]
  · exact storeMeasure_markSafesL_le _ _
  · exact storeMeasure_markMinesL_le _ _
  · exact le_trans (storeMeasure_markSafesL_le _ _) (storeMeasure_markMinesL_le _ _)

theorem passStep_fired_lt {s : Sentence} {st : Store}
    (hmem : s ∈ st.knowledge) (hne : s.cells ≠ ∅)
    (h : (passStep s st false).2 = true) :
    storeMeasure (passStep s st false).1 < storeMeasure st := by
  cases hm : s.knownMines with
  | some cs =>
    obtain ⟨hcs, _⟩ := knownMines_eq_some hm
    subst hcs
    cases hl : cellList s.cells with
    | nil => exact absurd hl (cellList_ne_nil hne)
    | cons c rest =>
      have hc : c ∈ s.cells := mem_cellList.mp (hl ▸ List.mem_cons_self c rest)
      have hlt : storeMeasure (markMinesL (cellList s.cells) st) < storeMeasure st := by
        rw [hl]
        exact storeMeasure_markMinesL_lt c rest st ⟨s, hmem, hc⟩
      cases hs : s.knownSafes with
      | some cs2 =>
        simp only [passStep, hm, hs]
        exact lt_of_le_of_lt (storeMeasure_markSafesL_le _ _) hlt
      | none => simpa [passStep, hm, hs] using hlt
  | none =>
    cases hs : s.knownSafes with
    | some cs =>
      obtain ⟨hcs, _⟩ := knownSafes_eq_some hs
      subst hcs
      cases hl : cellList s.cells with
      | nil => exact absurd hl (cellList_ne_nil hne)
      | cons c rest =>
        have hc : c ∈ s.cells := mem_cellList.mp (hl ▸ List.mem_cons_self c rest)
        simp only [passStep, hm, hs]
        rw [hl]
        exact storeMeasure_markSafesL_lt c rest st ⟨s, hmem, hc⟩
    | none => simp [passStep, hm, hs] at h

/-! ### Empty sentences survive marking -/

theorem mem_markMine_of_empty {st : Store} {c : Cell} {e : Sentence}
    (he : e.cells = ∅) (h : e ∈ st.knowledge) : e ∈ (st.markMine c).knowledge := by
  unfold Store.markMine
  dsimp only
  refine List.mem_map.mpr ⟨e, h, ?_⟩
  rw [he]
  simp

theorem mem_markSafe_of_empty {st : Store} {c : Cell} {e : Sentence}
    (he : e.cells = ∅) (h : e ∈ st.knowledge) : e ∈ (st.markSafe c).knowledge := by
  unfold Store.markSafe
  dsimp only
  refine List.mem_map.mpr ⟨e, h, ?_⟩
  rw [he]
  simp

theorem mem_markMinesL_of_empty (cs : List Cell) {st : Store} {e : Sentence}
    (he : e.cells = ∅) (h : e ∈ st.knowledge) : e ∈ (markMinesL cs st).knowledge := by
  induction cs generalizing st with
  | nil => exact h
  | cons c rest ih => exact ih (mem_markMine_of_empty he h)

theorem mem_markSafesL_of_empty (cs : List Cell) {st : Store} {e : Sentence}
    (he : e.cells = ∅) (h : e ∈ st.knowledge) : e ∈ (markSafesL cs st).knowledge := by
  induction cs generalizing st with
  | nil => exact h
  | cons c rest ih => exact ih (mem_markSafe_of_empty he h)

theorem mem_passStep_of_empty (s : Sentence) (st : Store) (flag : Bool) {e : Sentence}
    (he : e.cells = ∅) (h : e ∈ st.knowledge) : e ∈ ((passStep s st flag).1).knowledge := by
  cases hm : s.knownMines <;> cases hs : s.knownSafes <;> simp [passStep, hm, hs]
  · exact h
  · exact mem_markSafesL_of_empty _ he h
  · exact mem_markMinesL_of_empty _ he h
  · exact mem_markSafesL_of_empty _ he (mem_markMinesL_of_empty _ he h)

/-! ### Lemmas about a whole pass -/

theorem passAux_isSome :
    ∀ (snap : List Sentence) (st : Store) (flag : Bool),
      (∀ s ∈ snap, s.cells = ∅ → s ∈ st.knowledge) → (passAux snap st flag).isSome = true := by
  intro snap
  induction snap with
  | nil => intro st flag _; simp [passAux]
  | cons s rest ih =>
    intro st flag h
    by_cases hse : s.cells = ∅
    · have hmem : s ∈ st.knowledge := h s (List.mem_cons_self s rest) hse
      simp [passAux, hse, hmem]
    · simp only [passAux, hse, if_neg, ite_false]
      exact ih _ _ (fun s' hs' he' =>
        mem_passStep_of_empty s st flag he' (h s' (List.mem_cons_of_mem s hs') he'))

theorem passAux_measure_le :
    ∀ (snap : List Sentence) (st : Store) (flag : Bool) (r : Store × Bool),
      passAux snap st flag = some r → storeMeasure r.1 ≤ storeMeasure st := by
  intro snap
  induction snap with
  | nil =>
    intro st flag r h
    simp [passAux] at h
    simp [← h]
  | cons s rest ih =>
    intro st flag r h
    by_cases hse : s.cells = ∅
    · by_cases hmem : s ∈ st.knowledge
      · simp [passAux, hse, hmem] at h
        rw [← h]
        exact le_of_lt (storeMeasure_erase_lt hmem)
      · simp [passAux, hse, hmem] at h
    · simp only [passAux, hse, if_neg, ite_false] at h
      exact le_trans (ih _ _ _ h) (passStep_measure_le s st flag)

theorem passAux_flag_mono :
    ∀ (snap : List Sentence) (st : Store) (r : Store × Bool),
      passAux snap st true = some r → r.2 = true := by
  intro snap
  induction snap with
  | nil =>
    intro st r h
    simp [passAux] at h
    simp [← h]
  | cons s rest ih =>
    intro st r h
    by_cases hse : s.cells = ∅
    · by_cases hmem : s ∈ st.knowledge
      · simp [passAux, hse, hmem] at h
        simp [← h]
      · simp [passAux, hse, hmem] at h
    · simp only [passAux, hse, if_neg, ite_false] at h
      rw [passStep_flag_true s st] at h
      exact ih _ _ h

theorem passAux_false_char :
    ∀ (snap : List Sentence) (st st' : Store),
      passAux snap st false = some (st', false) →
      st' = st ∧ ∀ s ∈ snap, s.cells ≠ ∅ ∧ s.knownMines = none ∧ s.knownSafes = none := by
  intro snap
  induction snap with
  | nil =>
    intro st st' h
    simp [passAux] at h
    exact ⟨h.symm, by simp⟩
  | cons s rest ih =>
    intro st st' h
    by_cases hse : s.cells = ∅
    · by_cases hmem : s ∈ st.knowledge
      · simp [passAux, hse, hmem] at h
      · simp [passAux, hse, hmem] at h
    · simp only [passAux, hse, if_neg, ite_false] at h
      cases hflag : (passStep s st false).2 with
      | true =>
        rw [hflag] at h
        have hcontra := passAux_flag_mono rest _ _ h
        simp at hcontra
      | false =>
        obtain ⟨hm, hs⟩ := passStep_flag_char hflag
        rw [passStep_none_none hm hs] at h
        obtain ⟨hst, hrest⟩ := ih _ _ h
        refine ⟨hst, ?_⟩
        intro t ht
        rcases List.mem_cons.mp ht with rfl | ht'
        · exact ⟨hse, hm, hs⟩
        · exact hrest t ht'

theorem passAux_flag_decrease :
    ∀ (snap : List Sentence) (st st' : Store),
      (∀ s ∈ snap, s ∈ st.knowledge) →
      passAux snap st false = some (st', true) → storeMeasure st' < storeMeasure st := by
  intro snap
  induction snap with
  | nil =>
    intro st st' _ h
    simp [passAux] at h
  | cons s rest ih =>
    intro st st' hmem h
    by_cases hse : s.cells = ∅
    · have hsm : s ∈ st.knowledge := hmem s (List.mem_cons_self s rest)
      simp [passAux, hse, hsm] at h
      rw [← h]
      exact storeMeasure_erase_lt hsm
    · simp only [passAux, hse, if_neg, ite_false] at h
      cases hflag : (passStep s st false).2 with
      | false =>
        obtain ⟨hm, hs⟩ := passStep_flag_char hflag
        rw [passStep_none_none hm hs] at h
        exact ih st st' (fun t ht => hmem t (List.mem_cons_of_mem s ht)) h
      | true =>
        rw [hflag] at h
        have h1 : storeMeasure (passStep s st false).1 < storeMeasure st :=
          passStep_fired_lt (hmem s (List.mem_cons_self s rest)) hse hflag
        exact lt_of_le_of_lt (passAux_measure_le rest _ _ _ h) h1

/-! ### The closure procedure always reaches a fixpoint -/

theorem applyKnowledgeAux_spec :
    ∀ (n : ℕ) (st : Store), storeMeasure st < n →
      ∃ st', applyKnowledgeAux n st = some st' ∧
        passAux st'.knowledge st' false = some (st', false) := by
  intro n
  induction n with
  | zero => intro st h; omega
  | succ n ih =>
    intro st hlt
    have hsome := passAux_isSome st.knowledge st false (fun s hs _ => hs)
    obtain ⟨⟨st1, f⟩, hpass⟩ := Option.isSome_iff_exists.mp hsome
    cases f with
    | false =>
      obtain ⟨hst, _⟩ := passAux_false_char _ _ _ hpass
      subst hst
      exact ⟨st1, by simp [applyKnowledgeAux, hpass], hpass⟩
    | true =>
      have hdec : storeMeasure st1 < storeMeasure st :=
        passAux_flag_decrease st.knowledge st st1 (fun s hs => hs) hpass
      obtain ⟨st', h1, h2⟩ := ih st1 (by omega)
      exact ⟨st', by simp [applyKnowledgeAux, hpass, h1], h2⟩

theorem applyKnowledge_spec (st : Store) :
    ∃ st', applyKnowledge st = some st' ∧
      passAux st'.knowledge st' false = some (st', false) :=
  applyKnowledgeAux_spec (storeMeasure st + 1) st (Nat.lt_succ_self _)

/-! ### Known cells stay out of the knowledge list across the closure -/

theorem nkc_markMine {st : Store} (c : Cell) (h : noKnownCells st) :
    noKnownCells (st.markMine c) := by
  unfold noKnownCells Store.markMine at *
  dsimp only
  intro s' hs' x hx
  obtain ⟨s, hs, rfl⟩ := List.mem_map.mp hs'
  rw [markMineIf_cells] at hx
  have hxs : x ∈ s.cells := Finset.mem_of_mem_erase hx
  have hxc : x ≠ c := Finset.ne_of_mem_erase hx
  have hold := h s hs x hxs
  refine ⟨hold.1, ?_⟩
  intro hmem
  rcases Finset.mem_insert.mp hmem with h1 | h1
  · exact hxc h1
  · exact hold.2 h1

theorem nkc_markSafe {st : Store} (c : Cell) (h : noKnownCells st) :
    noKnownCells (st.markSafe c) := by
  unfold noKnownCells Store.markSafe at *
  dsimp only
  intro s' hs' x hx
  obtain ⟨s, hs, rfl⟩ := List.mem_map.mp hs'
  rw [markSafeIf_cells] at hx
  have hxs : x ∈ s.cells := Finset.mem_of_mem_erase hx
  have hxc : x ≠ c := Finset.ne_of_mem_erase hx
  have hold := h s hs x hxs
  refine ⟨?_, hold.2⟩
  intro hmem
  rcases Finset.mem_insert.mp hmem with h1 | h1
  · exact hxc h1
  · exact hold.1 h1

theorem nkc_markMinesL (cs : List Cell) {st : Store} (h : noKnownCells st) :
    noKnownCells (markMinesL cs st) := by
  induction cs generalizing st with
  | nil => exact h
  | cons c rest ih => exact ih (nkc_markMine c h)

theorem nkc_markSafesL (cs : List Cell) {st : Store} (h : noKnownCells st) :
    noKnownCells (markSafesL cs st) := by
  induction cs generalizing st with
  | nil => exact h
  | cons c rest ih => exact ih (nkc_markSafe c h)

theorem nkc_passStep (s : Sentence) (st : Store) (flag : Bool) (h : noKnownCells st) :
    noKnownCells (passStep s st flag).1 := by
  cases hm : s.knownMines <;> cases hs : s.knownSafes <;> simp [passStep, hm, hs]
  · exact h
  · exact nkc_markSafesL _ h
  · exact nkc_markMinesL _ h
  · exact nkc_markSafesL _ (nkc_markMinesL _ h)

theorem nkc_erase {st : Store} (s : Sentence) (h : noKnownCells st) :
    noKnownCells { st with knowledge := st.knowledge.erase s } := by
  unfold noKnownCells at *
  dsimp only
  intro t ht x hx
  exact h t (List.mem_of_mem_erase ht) x hx

theorem nkc_passAux :
    ∀ (snap : List Sentence) (st : Store) (flag : Bool) (r : Store × Bool),
      noKnownCells st → passAux snap st flag = some r → noKnownCells r.1 := by
  intro snap
  induction snap with
  | nil =>
    intro st flag r h heq
    simp [passAux] at heq
    rw [← heq]
    exact h
  | cons s rest ih =>
    intro st flag r h heq
    by_cases hse : s.cells = ∅
    · by_cases hmem : s ∈ st.knowledge
      · simp [passAux, hse, hmem] at heq
        rw [← heq]
        exact nkc_erase s h
      · simp [passAux, hse, hmem] at heq
    · simp only [passAux, hse, if_neg, ite_false] at heq
      exact ih _ _ _ (nkc_passStep s st flag h) heq

theorem nkc_applyAux :
    ∀ (n : ℕ) (st st' : Store),
      noKnownCells st → applyKnowledgeAux n st = some st' → noKnownCells st' := by
  intro n
  induction n with
  | zero => intro st st' _ h; simp [applyKnowledgeAux] at h
  | succ n ih =>
    intro st st' h heq
    cases hpass : passAux st.knowledge st false with
    | none => simp [applyKnowledgeAux, hpass] at heq
    | some r =>
      obtain ⟨st1, f⟩ := r
      cases f with
      | true =>
        simp [applyKnowledgeAux, hpass] at heq
        exact ih st1 st' (nkc_passAux _ _ _ _ h hpass) heq
      | false =>
        simp [applyKnowledgeAux, hpass] at heq
        rw [← heq]
        exact nkc_passAux _ _ _ _ h hpass

/-! ### Soundness of the marking primitives with respect to a board -/

theorem holds_markMineIf {M : Finset Cell} {c : Cell} {s : Sentence}
    (hcM : c ∈ M) (h : sentenceHolds M s) :
    sentenceHolds M (if c ∈ s.cells then s.markMine c else s) := by
  by_cases hc : c ∈ s.cells
  · simp only [hc, if_true, Sentence.markMine]
    unfold sentenceHolds at *
    dsimp only
    have hset : s.cells.erase c ∩ M = (s.cells ∩ M).erase c := by
      ext x
      simp only [Finset.mem_erase, Finset.mem_inter]
      tauto
    rw [hset]
    have hcm : c ∈ s.cells ∩ M := Finset.mem_inter.mpr ⟨hc, hcM⟩
    rw [Finset.card_erase_of_mem hcm]
    have hpos : 0 < (s.cells ∩ M).card := Finset.card_pos.mpr ⟨c, hcm⟩
    omega
  · simpa [hc] using h

theorem holds_markSafeIf {M : Finset Cell} {c : Cell} {s : Sentence}
    (hcM : c ∉ M) (h : sentenceHolds M s) :
    sentenceHolds M (if c ∈ s.cells then s.markSafe c else s) := by
  by_cases hc : c ∈ s.cells
  · simp only [hc, if_true, Sentence.markSafe]
    unfold sentenceHolds at *
    dsimp only
    have hset : s.cells.erase c ∩ M = s.cells ∩ M := by
      ext x
      simp only [Finset.mem_erase, Finset.mem_inter]
      constructor
      · rintro ⟨⟨_, h1⟩, h2⟩
        exact ⟨h1, h2⟩
      · rintro ⟨h1, h2⟩
        exact ⟨⟨fun he => hcM (he ▸ h2), h1⟩, h2⟩
    rw [hset]
    exact h
  · simpa [hc] using h

theorem invM_markMine {M : Finset Cell} {st : Store} {c : Cell}
    (hcM : c ∈ M) (h : InvM M st) : InvM M (st.markMine c) := by
  obtain ⟨hk, hm, hs, hmm⟩ := h
  unfold InvM Store.markMine
  dsimp only
  refine ⟨?_, ?_, hs, hmm⟩
  · intro s' hs'
    obtain ⟨s, hsk, rfl⟩ := List.mem_map.mp hs'
    exact holds_markMineIf hcM (hk s hsk)
  · exact Finset.insert_subset_iff.mpr ⟨hcM, hm⟩

theorem invM_markSafe {M : Finset Cell} {st : Store} {c : Cell}
    (hcM : c ∉ M) (h : InvM M st) : InvM M (st.markSafe c) := by
  obtain ⟨hk, hm, hs, hmm⟩ := h
  unfold InvM Store.markSafe
  dsimp only
  refine ⟨?_, hm, ?_, hmm⟩
  · intro s' hs'
    obtain ⟨s, hsk, rfl⟩ := List.mem_map.mp hs'
    exact holds_markSafeIf hcM (hk s hsk)
  · intro x hx
    rcases Finset.mem_insert.mp hx with rfl | hx'
    · exact hcM
    · exact hs x hx'

theorem invM_markMinesL {M : Finset Cell} (cs : List Cell) {st : Store}
    (hcs : ∀ c ∈ cs, c ∈ M) (h : InvM M st) : InvM M (markMinesL cs st) := by
  induction cs generalizing st with
  | nil => exact h
  | cons c rest ih =>
    exact ih (fun c' hc' => hcs c' (List.mem_cons_of_mem c hc'))
      (invM_markMine (hcs c (List.mem_cons_self c rest)) h)

theorem invM_markSafesL {M : Finset Cell} (cs : List Cell) {st : Store}
    (hcs : ∀ c ∈ cs, c ∉ M) (h : InvM M st) : InvM M (markSafesL cs st) := by
  induction cs generalizing st with
  | nil => exact h
  | cons c rest ih =>
    exact ih (fun c' hc' => hcs c' (List.mem_cons_of_mem c hc'))
      (invM_markSafe (hcs c (List.mem_cons_self c rest)) h)

theorem holds_full_subset {M : Finset Cell} {s : Sentence}
    (h : sentenceHolds M s) (hc : (s.cells.card : ℤ) = s.count) :
    ∀ x ∈ s.cells, x ∈ M := by
  unfold sentenceHolds at h
  have hcard : (s.cells ∩ M).card = s.cells.card := by omega
  have heq : s.cells ∩ M = s.cells :=
    Finset.eq_of_subset_of_card_le Finset.inter_subset_left (le_of_eq hcard.symm)
  intro x hx
  have : x ∈ s.cells ∩ M := heq.symm ▸ hx
  exact (Finset.mem_inter.mp this).2

theorem holds_zero_count {M : Finset Cell} {s : Sentence}
    (h : sentenceHolds M s) (hc : s.count = 0) :
    ∀ x ∈ s.cells, x ∉ M := by
  unfold sentenceHolds at h
  have hcard : (s.cells ∩ M).card = 0 := by omega
  have heq : s.cells ∩ M = ∅ := Finset.card_eq_zero.mp hcard
  intro x hx hxM
  have : x ∈ s.cells ∩ M := Finset.mem_inter.mpr ⟨hx, hxM⟩
  rw [heq] at this
  exact absurd this (Finset.not_mem_empty x)

theorem invM_passStep {M : Finset Cell} (s : Sentence) (st : Store) (flag : Bool)
    (hh : sentenceHolds M s) (h : InvM M st) : InvM M (passStep s st flag).1 := by
  cases hm : s.knownMines with
  | some cs =>
    obtain ⟨rfl, hcount⟩ := knownMines_eq_some hm
    have hall : ∀ c ∈ cellList s.cells, c ∈ M :=
      fun c hc => holds_full_subset hh hcount c (mem_cellList.mp hc)
    cases hs : s.knownSafes with
    | some cs2 =>
      obtain ⟨rfl, hzero⟩ := knownSafes_eq_some hs
      have hall2 : ∀ c ∈ cellList s.cells, c ∉ M :=
        fun c hc => holds_zero_count hh hzero c (mem_cellList.mp hc)
      simp only [passStep, hm, hs]
      exact invM_markSafesL _ hall2 (invM_markMinesL _ hall h)
    | none =>
      simp only [passStep, hm, hs]
      exact invM_markMinesL _ hall h
  | none =>
    cases hs : s.knownSafes with
    | some cs2 =>
      obtain ⟨rfl, hzero⟩ := knownSafes_eq_some hs
      have hall2 : ∀ c ∈ cellList s.cells, c ∉ M :=
        fun c hc => holds_zero_count hh hzero c (mem_cellList.mp hc)
      simp only [passStep, hm, hs]
      exact invM_markSafesL _ hall2 h
    | none =>
      rw [passStep_none_none hm hs]
      exact h

theorem invM_erase {M : Finset Cell} {st : Store} (s : Sentence) (h : InvM M st) :
    InvM M { st with knowledge := st.knowledge.erase s } := by
  obtain ⟨hk, hm, hs, hmm⟩ := h
  exact ⟨fun t ht => hk t (List.mem_of_mem_erase ht), hm, hs, hmm⟩

theorem invM_passAux {M : Finset Cell} :
    ∀ (snap : List Sentence) (st : Store) (flag : Bool) (r : Store × Bool),
      (∀ s ∈ snap, sentenceHolds M s) → InvM M st →
      passAux snap st flag = some r → InvM M r.1 := by
  intro snap
  induction snap with
  | nil =>
    intro st flag r _ h heq
    simp [passAux] at heq
    rw [← heq]
    exact h
  | cons s rest ih =>
    intro st flag r hsnap h heq
    by_cases hse : s.cells = ∅
    · by_cases hmem : s ∈ st.knowledge
      · simp [passAux, hse, hmem] at heq
        rw [← heq]
        exact invM_erase s h
      · simp [passAux, hse, hmem] at heq
    · simp only [passAux, hse, if_neg, ite_false] at heq
      exact ih _ _ _ (fun t ht => hsnap t (List.mem_cons_of_mem s ht))
        (invM_passStep s st flag (hsnap s (List.mem_cons_self s rest)) h) heq

theorem invM_applyAux {M : Finset Cell} :
    ∀ (n : ℕ) (st st' : Store),
      InvM M st → applyKnowledgeAux n st = some st' → InvM M st' := by
  intro n
  induction n with
  | zero => intro st st' _ h; simp [applyKnowledgeAux] at h
  | succ n ih =>
    intro st st' h heq
    cases hpass : passAux st.knowledge st false with
    | none => simp [applyKnowledgeAux, hpass] at heq
    | some r =>
      obtain ⟨st1, f⟩ := r
      have hinv1 : InvM M st1 :=
        invM_passAux st.knowledge st false (st1, f) h.1 h hpass
      cases f with
      | true =>
        simp [applyKnowledgeAux, hpass] at heq
        exact ih st1 st' hinv1 heq
      | false =>
        simp [applyKnowledgeAux, hpass] at heq
        rw [← heq]
        exact hinv1

theorem holds_generate {M : Finset Cell} {st : Store}
    (h : ∀ s ∈ st.knowledge, sentenceHolds M s) :
    ∀ t ∈ generateNewKnowledge st, sentenceHolds M t := by
  intro t ht
  unfold generateNewKnowledge at ht
  obtain ⟨s1, hs1, ht'⟩ := List.mem_flatMap.mp ht
  obtain ⟨s2, hs2, heq⟩ := List.mem_filterMap.mp ht'
  by_cases hcond : s1 ≠ s2 ∧ s1.cells ⊆ s2.cells
  · rw [if_pos hcond] at heq
    dsimp only at heq
    by_cases hpos : 0 < (s2.cells \ s1.cells).card
    · rw [if_pos hpos] at heq
      injection heq with heq2
      subst heq2
      have h1 := h s1 hs1
      have h2 := h s2 hs2
      unfold sentenceHolds at *
      dsimp only
      have hset : (s2.cells \ s1.cells) ∩ M = (s2.cells ∩ M) \ (s1.cells ∩ M) := by
        ext x
        simp only [Finset.mem_sdiff, Finset.mem_inter]
        tauto
      rw [hset]
      have hsub : s1.cells ∩ M ⊆ s2.cells ∩ M :=
        Finset.inter_subset_inter hcond.2 (le_refl M)
      rw [Finset.card_sdiff hsub]
      have hle : (s1.cells ∩ M).card ≤ (s2.cells ∩ M).card := Finset.card_le_card hsub
      omega
    · rw [if_neg hpos] at heq
      exact absurd heq (by simp)
  · rw [if_neg hcond] at heq
    exact absurd heq (by simp)

/-! ### Bounds and the shape of add_knowledge -/

theorem mem_boundedBox_self (h w : ℤ) (cell : Cell) :
    cell ∈ boundedBox h w cell ↔ (0 ≤ cell.1 ∧ cell.1 < h ∧ 0 ≤ cell.2 ∧ cell.2 < w) := by
  unfold boundedBox
  simp only [Finset.mem_filter, Finset.mem_product, Finset.mem_Icc]
  constructor
  · rintro ⟨_, hb⟩
    exact hb
  · intro hb
    exact ⟨⟨⟨by omega, by omega⟩, ⟨by omega, by omega⟩⟩, hb⟩

theorem getNeighbouringCells_inBounds {st : Store} {cell : Cell} (h : inBounds st cell) :
    getNeighbouringCells st cell = some (neighboursIn st.height st.width cell) := by
  unfold getNeighbouringCells neighboursIn
  rw [if_pos ((mem_boundedBox_self st.height st.width cell).mpr h)]

theorem getNeighbouringCells_outBounds {st : Store} {cell : Cell} (h : ¬ inBounds st cell) :
    getNeighbouringCells st cell = none := by
  unfold getNeighbouringCells
  rw [if_neg (fun hmem => h ((mem_boundedBox_self st.height st.width cell).mp hmem))]

theorem addKnowledge_out {st : Store} {cell : Cell} (count : ℤ) (hb : ¬ inBounds st cell) :
    addKnowledge st cell count =
      Except.error (Store.markSafe { st with moves_made := insert cell st.moves_made } cell) := by
  unfold addKnowledge getHiddenNeighbouringCells
  dsimp only
  rw [@getNeighbouringCells_outBounds
    (Store.markSafe { st with moves_made := insert cell st.moves_made } cell) cell hb]
  rfl

theorem addKnowledge_in {st : Store} {cell : Cell} (count : ℤ) (hb : inBounds st cell) :
    ∃ st4, applyKnowledge (observePrefix st cell count) = some st4 ∧
      addKnowledge st cell count =
        Except.ok { st4 with knowledge := st4.knowledge ++ generateNewKnowledge st4 } := by
  obtain ⟨st4, h1, _⟩ := applyKnowledge_spec (observePrefix st cell count)
  refine ⟨st4, h1, ?_⟩
  unfold addKnowledge getHiddenNeighbouringCells
  dsimp only
  rw [@getNeighbouringCells_inBounds
    (Store.markSafe { st with moves_made := insert cell st.moves_made } cell) cell hb]
  rw [Option.map_some']
  unfold observePrefix at h1
  dsimp only at h1 ⊢
  rw [h1]

/-! ### Soundness of add_knowledge -/

theorem inter_sdiff_of_disjoint {A B M : Finset Cell} (h : ∀ x ∈ B, x ∉ M) :
    (A \ B) ∩ M = A ∩ M := by
  ext x
  simp only [Finset.mem_inter, Finset.mem_sdiff]
  constructor
  · rintro ⟨⟨h1, _⟩, h2⟩
    exact ⟨h1, h2⟩
  · rintro ⟨h1, h2⟩
    exact ⟨⟨h1, fun hB => h x hB h2⟩, h2⟩

theorem invM_insertMove {M : Finset Cell} {st : Store} {cell : Cell}
    (h : InvM M st) (hcell : cell ∉ M) :
    InvM M { st with moves_made := insert cell st.moves_made } := by
  obtain ⟨hk, hm, hs, hmm⟩ := h
  refine ⟨hk, hm, hs, ?_⟩
  intro c hc
  rcases Finset.mem_insert.mp hc with rfl | hc'
  · exact hcell
  · exact hmm c hc'

theorem invM_observePrefix {M : Finset Cell} {st : Store} {cell : Cell} {count : ℤ}
    (h2 : InvM M (Store.markSafe { st with moves_made := insert cell st.moves_made } cell))
    (hcount : count = ((neighboursIn st.height st.width cell ∩ M).card : ℤ)) :
    InvM M (observePrefix st cell count) := by
  unfold observePrefix
  dsimp only
  split
  · obtain ⟨hk, hm, hs, hmm⟩ := h2
    refine ⟨?_, hm, hs, hmm⟩
    intro t ht
    rcases List.mem_append.mp ht with ht' | ht'
    · exact hk t ht'
    · have ht2 := List.mem_singleton.mp ht'
      subst ht2
      unfold sentenceHolds
      dsimp only
      rw [inter_sdiff_of_disjoint hmm]
      exact hcount.symm
  · exact h2

theorem invM_addKnowledge {M : Finset Cell} {st : Store} {cell : Cell} {count : ℤ}
    (h : InvM M st) (hcell : cell ∉ M)
    (hcount : count = ((neighboursIn st.height st.width cell ∩ M).card : ℤ)) :
    InvM M (stateOf (addKnowledge st cell count)) := by
  have h2 : InvM M (Store.markSafe { st with moves_made := insert cell st.moves_made } cell) :=
    invM_markSafe hcell (invM_insertMove h hcell)
  by_cases hb : inBounds st cell
  · obtain ⟨st4, happly, heq⟩ := addKnowledge_in count hb
    rw [heq]
    have h3 : InvM M (observePrefix st cell count) := invM_observePrefix h2 hcount
    have h4 : InvM M st4 := by
      unfold applyKnowledge at happly
      exact invM_applyAux _ _ _ h3 happly
    show InvM M { st4 with knowledge := st4.knowledge ++ generateNewKnowledge st4 }
    obtain ⟨hk4, hm4, hs4, hmm4⟩ := h4
    refine ⟨?_, hm4, hs4, hmm4⟩
    intro t ht
    rcases List.mem_append.mp ht with ht' | ht'
    · exact hk4 t ht'
    · exact holds_generate hk4 t ht'
  · rw [addKnowledge_out count hb]
    exact h2

theorem reachesCons_invM {M : Finset Cell} {h w : ℤ} {st : Store}
    (hr : ReachesCons M h w st) : InvM M st := by
  induction hr with
  | init =>
    refine ⟨?_, ?_, ?_, ?_⟩ <;> simp [initStore, InvM]
  | addK cell count _ hcell hcount ih => exact invM_addKnowledge ih hcell hcount
  | markM cell _ hcell ih => exact invM_markMine hcell ih
  | markS cell _ hcell ih => exact invM_markSafe hcell ih

/-! ### Claim theorems -/

/-- Claim C1, counterexample to the claim as stated: the state obtained by
the public calls `mark_mine((0,0))` then `mark_safe((0,0))` on a fresh
2 by 2 agent is reachable by public operations, yet its `safes` and
`mines` sets both contain `(0,0)`, so they are not disjoint. -/
theorem claim1_counterexample :
    ReachesAny 2 2 claim1CexStore ∧ claim1CexStore.safes ∩ claim1CexStore.mines ≠ ∅ := by
  constructor
  · exact ReachesAny.markS _ (ReachesAny.markM _ ReachesAny.init)
  · decide

/-- Claim C1 (amended): for every state reachable by public operations
that are consistent with a ground-truth board with mine set `M`
(observations report the true neighbour mine count of a non-mine cell;
`mark_mine` is called only on true mines and `mark_safe` only on true
non-mines), the tracked mines are true mines, the tracked safes are true
non-mines, and consequently `safes ∩ mines = ∅`. -/
theorem claim1_soundness_disjoint {M : Finset Cell} {h w : ℤ} {st : Store}
    (hr : ReachesCons M h w st) :
    st.mines ⊆ M ∧ (∀ c ∈ st.safes, c ∉ M) ∧ st.safes ∩ st.mines = ∅ := by
  obtain ⟨_, hm, hs, _⟩ := reachesCons_invM hr
  refine ⟨hm, hs, ?_⟩
  ext x
  simp only [Finset.mem_inter, Finset.not_mem_empty, iff_false, not_and]
  intro hxs hxm
  exact hs x hxs (hm hxm)

/-- Witness for C1: a board-consistent observation of `(0,0)` with count 1
on a 2 by 3 board whose only mine is `(1,0)` leaves `safes` and `mines`
disjoint. -/
theorem claim1_soundness_disjoint_witness :
    (stateOf (addKnowledge (initStore 2 3) ((0 : ℤ), (0 : ℤ)) 1)).safes ∩
      (stateOf (addKnowledge (initStore 2 3) ((0 : ℤ), (0 : ℤ)) 1)).mines = ∅ :=
  (claim1_soundness_disjoint
    (@ReachesCons.addK {((1 : ℤ), (0 : ℤ))} 2 3 (initStore 2 3) ((0 : ℤ), (0 : ℤ)) 1
      ReachesCons.init (by decide) (by decide))).2.2

/-- Claim C2, counterexample to the claim as stated: after the
observations `(0,0) ↦ 0` and `(0,2) ↦ 1` on a fresh 3 by 3 agent (a trace
of `add_knowledge` calls alone), the closure has returned, yet the
remaining sentence `{(0,1),(1,1),(1,2)} = 1` still contains the cells
`(0,1)` and `(1,1)` that are already in `safes`: observations are not
pre-filtered against known cells, so the property fails at the end of an
`add_knowledge` call. -/
theorem claim2_counterexample :
    ∃ s ∈ claim2Trace.knowledge, ∃ c ∈ s.cells,
      c ∈ claim2Trace.safes ∨ c ∈ claim2Trace.mines := by
  decide

/-- Claim C2 (amended): `apply_knowledge` preserves the property that no
cell of any sentence in the knowledge list is tracked in `safes` or
`mines`; the property can fail after `add_knowledge` only because step 3
of `add_knowledge` may insert a raw sentence that already contains known
cells before the closure runs. -/
theorem claim2_closure_preserves_disjointness {st st' : Store}
    (hP : noKnownCells st) (h : applyKnowledge st = some st') : noKnownCells st' := by
  unfold applyKnowledge at h
  exact nkc_applyAux _ _ _ hP h

/-- Witness for C2: a store with the single sentence `{(0,1)} = 0` and no
known cells closes to a store with `(0,1)` safe and no sentences, which
again has no known cells in sentences. -/
theorem claim2_closure_preserves_disjointness_witness :
    noKnownCells { height := 2, width := 2, moves_made := ∅, safes := ∅, mines := ∅, knowledge := [{ cells := {((0 : ℤ), (1 : ℤ))}, count := 0 }] } ∧
      applyKnowledge { height := 2, width := 2, moves_made := ∅, safes := ∅, mines := ∅, knowledge := [{ cells := {((0 : ℤ), (1 : ℤ))}, count := 0 }] }
        = some { height := 2, width := 2, moves_made := ∅, safes := {((0 : ℤ), (1 : ℤ))}, mines := ∅, knowledge := [] } ∧
      noKnownCells { height := 2, width := 2, moves_made := ∅, safes := {((0 : ℤ), (1 : ℤ))}, mines := ∅, knowledge := [] } :=
  ⟨by decide, by decide,
    @claim2_closure_preserves_disjointness
      { height := 2, width := 2, moves_made := ∅, safes := ∅, mines := ∅, knowledge := [{ cells := {((0 : ℤ), (1 : ℤ))}, count := 0 }] }
      { height := 2, width := 2, moves_made := ∅, safes := {((0 : ℤ), (1 : ℤ))}, mines := ∅, knowledge := [] }
      (by decide) (by decide)⟩

/-- Claim C3: `generate_new_knowledge` returns exactly the difference
sentences of the ordered pairs of structurally distinct sentences of the
knowledge list where the first is a subset of the second and the
difference is non-empty; being a pure function of the store, it mutates
neither the existing sentences nor any other part of the store. -/
theorem claim3_generate_characterisation (st : Store) (t : Sentence) :
    t ∈ generateNewKnowledge st ↔
      ∃ s1 ∈ st.knowledge, ∃ s2 ∈ st.knowledge,
        s1 ≠ s2 ∧ s1.cells ⊆ s2.cells ∧ (s2.cells \ s1.cells).Nonempty ∧
        t = { cells := s2.cells \ s1.cells, count := s2.count - s1.count } := by
  unfold generateNewKnowledge
  rw [List.mem_flatMap]
  constructor
  · rintro ⟨s1, hs1, ht⟩
    rw [List.mem_filterMap] at ht
    obtain ⟨s2, hs2, heq⟩ := ht
    by_cases hcond : s1 ≠ s2 ∧ s1.cells ⊆ s2.cells
    · rw [if_pos hcond] at heq
      dsimp only at heq
      by_cases hpos : 0 < (s2.cells \ s1.cells).card
      · rw [if_pos hpos] at heq
        injection heq with heq2
        exact ⟨s1, hs1, s2, hs2, hcond.1, hcond.2, Finset.card_pos.mp hpos, heq2.symm⟩
      · rw [if_neg hpos] at heq
        exact absurd heq (by simp)
    · rw [if_neg hcond] at heq
      exact absurd heq (by simp)
  · rintro ⟨s1, hs1, s2, hs2, hne, hsub, hnonempty, rfl⟩
    refine ⟨s1, hs1, ?_⟩
    rw [List.mem_filterMap]
    refine ⟨s2, hs2, ?_⟩
    rw [if_pos ⟨hne, hsub⟩]
    dsimp only
    rw [if_pos (Finset.card_pos.mpr hnonempty)]

/-- Claim C4, counterexample to the claim as stated: on the sentence with
no cells and count 0, `known_mines` returns the empty set, not `None`
(the source checks only `len(cells) == count`, with no non-emptiness
guard). -/
theorem claim4_counterexample :
    Sentence.knownMines { cells := ∅, count := 0 } = some ∅ ∧
      Sentence.knownMines { cells := ∅, count := 0 } ≠ none := by
  constructor
  · rfl
  · decide

/-- Claim C4 (amended): `known_mines` returns the cell set exactly when
the count equals the number of cells (including the empty sentence with
count 0, where it returns the empty set), and `None` exactly otherwise. -/
theorem claim4_knownMines_characterisation (s : Sentence) :
    (s.knownMines = some s.cells ↔ (s.cells.card : ℤ) = s.count) ∧
      (s.knownMines = none ↔ (s.cells.card : ℤ) ≠ s.count) := by
  unfold Sentence.knownMines
  by_cases hc : (s.cells.card : ℤ) = s.count <;> simp [hc]

/-- Claim C5: for an in-bounds cell, `add_knowledge` is exactly the
composition: record the move, mark the cell safe, append the raw hidden
neighbour sentence when non-empty (`observePrefix`), close with
`apply_knowledge`, then append the `generate_new_knowledge` output
without re-running the closure.  The second conjunct exhibits the
deferral this ordering causes: in the concrete two-observation trace
`claim5Trace`, a resolution-derived sentence with count 0 sits in the
knowledge list while its cells are not yet in `safes`. -/
theorem claim5_addKnowledge_order {st : Store} {cell : Cell} (count : ℤ)
    (hb : inBounds st cell) :
    (∃ st4, applyKnowledge (observePrefix st cell count) = some st4 ∧
        addKnowledge st cell count =
          Except.ok { st4 with knowledge := st4.knowledge ++ generateNewKnowledge st4 }) ∧
      (∃ s ∈ claim5Trace.knowledge, s.knownSafes ≠ none ∧
        ∃ c ∈ s.cells, c ∉ claim5Trace.safes) := by
  refine ⟨addKnowledge_in count hb, ?_⟩
  decide

/-- Witness for C5: the composition holds at the concrete observation
`(0,0) ↦ 1` on a fresh 2 by 3 agent. -/
theorem claim5_addKnowledge_order_witness :
    inBounds (initStore 2 3) ((0 : ℤ), (0 : ℤ)) ∧
      ((∃ st4, applyKnowledge (observePrefix (initStore 2 3) ((0 : ℤ), (0 : ℤ)) 1) = some st4 ∧
          addKnowledge (initStore 2 3) ((0 : ℤ), (0 : ℤ)) 1 =
            Except.ok { st4 with knowledge := st4.knowledge ++ generateNewKnowledge st4 }) ∧
        (∃ s ∈ claim5Trace.knowledge, s.knownSafes ≠ none ∧
          ∃ c ∈ s.cells, c ∉ claim5Trace.safes)) :=
  ⟨by decide, claim5_addKnowledge_order 1 (by decide)⟩

/-- Claim C6: the closure is idempotent: if `apply_knowledge` turns `st`
into `st'`, then running it again on `st'` returns `st'` itself, leaving
`moves_made`, `safes`, `mines` and the knowledge list unchanged. -/
theorem claim6_closure_idempotent {st st' : Store}
    (h : applyKnowledge st = some st') : applyKnowledge st' = some st' := by
  obtain ⟨st'', h1, h2⟩ := applyKnowledge_spec st
  rw [h] at h1
  injection h1 with h1
  subst h1
  show applyKnowledgeAux (storeMeasure st' + 1) st' = some st'
  simp [applyKnowledgeAux, h2]

/-- Witness for C6: the store with the single sentence `{(0,1)} = 0`
closes to a fixpoint store, and a second closure run returns that store
unchanged. -/
theorem claim6_closure_idempotent_witness :
    applyKnowledge { height := 2, width := 2, moves_made := ∅, safes := {((0 : ℤ), (1 : ℤ))}, mines := ∅, knowledge := [] }
      = some { height := 2, width := 2, moves_made := ∅, safes := {((0 : ℤ), (1 : ℤ))}, mines := ∅, knowledge := [] } :=
  @claim6_closure_idempotent
    { height := 2, width := 2, moves_made := ∅, safes := ∅, mines := ∅, knowledge := [{ cells := {((0 : ℤ), (1 : ℤ))}, count := 0 }] }
    { height := 2, width := 2, moves_made := ∅, safes := {((0 : ℤ), (1 : ℤ))}, mines := ∅, knowledge := [] }
    (by decide)

/-- Claim C7: on every store (in particular on every store whose sentence
counts satisfy `0 ≤ count ≤ |cells|`), the closure terminates at a
fixpoint and never fails: `apply_knowledge` returns a store on which one
further pass raises no flag, removes nothing (the `list.remove` call
never misses), and makes no change. -/
theorem claim7_closure_terminates {st : Store}
    (_hcounts : ∀ s ∈ st.knowledge, 0 ≤ s.count ∧ s.count ≤ (s.cells.card : ℤ)) :
    ∃ st', applyKnowledge st = some st' ∧
      passAux st'.knowledge st' false = some (st', false) :=
  applyKnowledge_spec st

/-- Witness for C7: the closure of the store holding the single sentence
`{(0,0)} = 1` terminates at a fixpoint. -/
theorem claim7_closure_terminates_witness :
    (∀ s ∈ ({ height := 2, width := 2, moves_made := ∅, safes := ∅, mines := ∅, knowledge := [{ cells := {((0 : ℤ), (0 : ℤ))}, count := 1 }] } : Store).knowledge,
        0 ≤ s.count ∧ s.count ≤ (s.cells.card : ℤ)) ∧
      (∃ st', applyKnowledge { height := 2, width := 2, moves_made := ∅, safes := ∅, mines := ∅, knowledge := [{ cells := {((0 : ℤ), (0 : ℤ))}, count := 1 }] } = some st' ∧
        passAux st'.knowledge st' false = some (st', false)) :=
  ⟨by decide, claim7_closure_terminates (by decide)⟩

/-- Claim C8: `make_random_move` computes the board cells minus
`safes ∪ mines ∪ moves_made`; it returns `none` exactly when that set is
empty, any returned cell is an element of that set, and every element of
that set (hence every possible random draw) lies outside
`moves_made ∪ mines`. -/
theorem claim8_random_move (st : Store) :
    (makeRandomMove st = none ↔ unknownCells st = ∅) ∧
      (∀ c, makeRandomMove st = some c → c ∈ unknownCells st) ∧
      (∀ c ∈ unknownCells st, c ∉ st.moves_made ∧ c ∉ st.mines) := by
  refine ⟨?_, ?_, ?_⟩
  · unfold makeRandomMove
    by_cases hpos : 0 < (unknownCells st).card
    · rw [if_pos hpos]
      constructor
      · intro h
        have hne : cellList (unknownCells st) ≠ [] := by
          apply cellList_ne_nil
          intro he
          rw [he] at hpos
          simp at hpos
        cases hl : cellList (unknownCells st) with
        | nil => exact absurd hl hne
        | cons a l =>
          rw [hl] at h
          simp at h
      · intro h
        rw [h] at hpos
        simp at hpos
    · rw [if_neg hpos]
      have h0 : unknownCells st = ∅ := Finset.card_eq_zero.mp (by omega)
      simp [h0]
  · intro c h
    unfold makeRandomMove at h
    by_cases hpos : 0 < (unknownCells st).card
    · rw [if_pos hpos] at h
      have hc : c ∈ cellList (unknownCells st) := by
        cases hl : cellList (unknownCells st) with
        | nil =>
          rw [hl] at h
          simp at h
        | cons a l =>
          rw [hl] at h
          simp at h
          rw [h]
          exact List.mem_cons_self c l
      exact mem_cellList.mp hc
    · rw [if_neg hpos] at h
      simp at h
  · intro c hc
    unfold unknownCells at hc
    have h2 := (Finset.mem_sdiff.mp hc).2
    constructor
    · intro hmem
      exact h2 (by simp [Finset.mem_union, hmem])
    · intro hmem
      exact h2 (by simp [Finset.mem_union, hmem])

/-- Witness for C8: on a fresh 2 by 2 agent the random move returns the
cell `(0,0)`, which is in the unknown set and outside `moves_made` and
`mines`. -/
theorem claim8_random_move_witness :
    makeRandomMove (initStore 2 2) = some ((0 : ℤ), (0 : ℤ)) ∧
      ((0 : ℤ), (0 : ℤ)) ∈ unknownCells (initStore 2 2) ∧
      ((0 : ℤ), (0 : ℤ)) ∉ (initStore 2 2).moves_made ∧
      ((0 : ℤ), (0 : ℤ)) ∉ (initStore 2 2).mines := by
  refine ⟨by decide,
    (claim8_random_move (initStore 2 2)).2.1 ((0 : ℤ), (0 : ℤ)) (by decide), ?_, ?_⟩
  · exact ((claim8_random_move (initStore 2 2)).2.2 ((0 : ℤ), (0 : ℤ)) (by decide)).1
  · exact ((claim8_random_move (initStore 2 2)).2.2 ((0 : ℤ), (0 : ℤ)) (by decide)).2

/-- Claim C9, counterexample to the claim as stated: call `mark_mine` on
the out-of-bounds cell `(5,5)` of a fresh 2 by 2 agent (a public
operation), then call `add_knowledge((5,5), 0)`.  The call raises (the
`KeyError` of the neighbour computation), but only after adding `(5,5)`
to `moves_made` and `safes`; the resulting object state has
`safes ∩ mines = {(5,5)} ≠ ∅`, so the store is not left in a consistent
state. -/
theorem claim9_counterexample :
    raised (addKnowledge claim9CexStore ((5 : ℤ), (5 : ℤ)) 0) = true ∧
      (stateOf (addKnowledge claim9CexStore ((5 : ℤ), (5 : ℤ)) 0)).safes ∩
        (stateOf (addKnowledge claim9CexStore ((5 : ℤ), (5 : ℤ)) 0)).mines ≠ ∅ := by
  constructor
  · decide
  · decide

/-- Claim C9 (amended): an `add_knowledge` call on an out-of-bounds cell
fails with an error (the embedded `KeyError`); the knowledge list itself
is unchanged whenever all sentence cells are in bounds (true in every
reachable state), but before raising, the call has already added the
out-of-bounds cell to `moves_made` and `safes`, while `mines` and the
board dimensions are untouched. -/
theorem claim9_oob_error {st : Store} {cell : Cell} (count : ℤ) (hb : ¬ inBounds st cell) :
    ∃ st', addKnowledge st cell count = Except.error st' ∧
      st'.moves_made = insert cell st.moves_made ∧
      st'.safes = insert cell st.safes ∧
      st'.mines = st.mines ∧ st'.height = st.height ∧ st'.width = st.width ∧
      ((∀ s ∈ st.knowledge, ∀ c ∈ s.cells, inBounds st c) → st'.knowledge = st.knowledge) := by
  refine ⟨Store.markSafe { st with moves_made := insert cell st.moves_made } cell,
    addKnowledge_out count hb, rfl, rfl, rfl, rfl, rfl, ?_⟩
  intro hall
  show (Store.markSafe { st with moves_made := insert cell st.moves_made } cell).knowledge
      = st.knowledge
  unfold Store.markSafe
  dsimp only
  have hgen : ∀ (l : List Sentence), (∀ s ∈ l, cell ∉ s.cells) →
      l.map (fun s => if cell ∈ s.cells then s.markSafe cell else s) = l := by
    intro l hl
    induction l with
    | nil => rfl
    | cons a rest ih =>
      rw [List.map_cons, ih (fun s hs => hl s (List.mem_cons_of_mem a hs)),
        if_neg (hl a (List.mem_cons_self a rest))]
  apply hgen
  intro s hs hmem
  exact hb (hall s hs cell hmem)

/-- Witness for C9: the out-of-bounds call `add_knowledge((5,5), 0)` on a
fresh 2 by 2 agent errors with the described state. -/
theorem claim9_oob_error_witness :
    (¬ inBounds (initStore 2 2) ((5 : ℤ), (5 : ℤ))) ∧
      (∃ st', addKnowledge (initStore 2 2) ((5 : ℤ), (5 : ℤ)) 0 = Except.error st' ∧
        st'.moves_made = insert ((5 : ℤ), (5 : ℤ)) (initStore 2 2).moves_made ∧
        st'.safes = insert ((5 : ℤ), (5 : ℤ)) (initStore 2 2).safes ∧
        st'.mines = (initStore 2 2).mines ∧ st'.height = (initStore 2 2).height ∧
        st'.width = (initStore 2 2).width ∧
        ((∀ s ∈ (initStore 2 2).knowledge, ∀ c ∈ s.cells, inBounds (initStore 2 2) c) →
          st'.knowledge = (initStore 2 2).knowledge)) :=
  ⟨by decide, claim9_oob_error 0 (by decide)⟩

/-- Claim C10: whenever the closure returns, every remaining sentence is
strictly informative: its cell set is non-empty, its count is neither 0
nor the number of its cells, and neither `known_mines` nor `known_safes`
fires on it. -/
theorem claim10_fixpoint_informative {st st' : Store}
    (h : applyKnowledge st = some st') :
    ∀ s ∈ st'.knowledge, s.cells ≠ ∅ ∧ s.count ≠ 0 ∧ (s.cells.card : ℤ) ≠ s.count ∧
      s.knownMines = none ∧ s.knownSafes = none := by
  obtain ⟨st'', h1, h2⟩ := applyKnowledge_spec st
  rw [h] at h1
  injection h1 with h1
  subst h1
  obtain ⟨_, hall⟩ := passAux_false_char _ _ _ h2
  intro s hs
  obtain ⟨hne, hm, hsafe⟩ := hall s hs
  exact ⟨hne, knownSafes_eq_none.mp hsafe, knownMines_eq_none.mp hm, hm, hsafe⟩

/-- Witness for C10: the store holding the single sentence
`{(0,0),(0,1)} = 1` is its own fixpoint, and that sentence is strictly
informative. -/
theorem claim10_fixpoint_informative_witness :
    applyKnowledge { height := 2, width := 2, moves_made := ∅, safes := ∅, mines := ∅, knowledge := [{ cells := {((0 : ℤ), (0 : ℤ)), ((0 : ℤ), (1 : ℤ))}, count := 1 }] }
        = some { height := 2, width := 2, moves_made := ∅, safes := ∅, mines := ∅, knowledge := [{ cells := {((0 : ℤ), (0 : ℤ)), ((0 : ℤ), (1 : ℤ))}, count := 1 }] } ∧
      (∀ s ∈ ({ height := 2, width := 2, moves_made := ∅, safes := ∅, mines := ∅, knowledge := [{ cells := {((0 : ℤ), (0 : ℤ)), ((0 : ℤ), (1 : ℤ))}, count := 1 }] } : Store).knowledge,
        s.cells ≠ ∅ ∧ s.count ≠ 0 ∧ (s.cells.card : ℤ) ≠ s.count ∧
        s.knownMines = none ∧ s.knownSafes = none) :=
  ⟨by decide,
    @claim10_fixpoint_informative
      { height := 2, width := 2, moves_made := ∅, safes := ∅, mines := ∅, knowledge := [{ cells := {((0 : ℤ), (0 : ℤ)), ((0 : ℤ), (1 : ℤ))}, count := 1 }] }
      { height := 2, width := 2, moves_made := ∅, safes := ∅, mines := ∅, knowledge := [{ cells := {((0 : ℤ), (0 : ℤ)), ((0 : ℤ), (1 : ℤ))}, count := 1 }] }
      (by decide)⟩
